import Mathlib

/-!
Shallow embedding of the message-aggregation / debounce core of the
OPENAI-TELEGRAM-BOT repository (`src/bot.py`, with the Redis connection
helper `src/redis_client.py`), together with proofs of the specification
claims about it.

Modelling conventions:
* Machine state (the Redis cache, the global `user_jobs` dict, the set of
  jobs handed to the Telegram `JobQueue`) is explicit state passing over
  association lists keyed by `user_id`.
* The OpenAI completion capability is an oracle `Nat → String → Option String`;
  `none` models the call raising an exception, `some r` a successful reply
  with content `r`.
* Observable effects (a completion request, a Telegram `send_message`) are an
  explicit event list.
* Python strings are Lean `String`s (lists of characters); helpers such as
  `str.strip`, `html.escape`, `str.splitlines`, `re.split("```", ·)` and
  `int(·)` are modelled character by character, restricted to the ASCII
  behaviour the bot exercises.
-/

namespace Bot

/-- Python whitespace test used by `str.strip()`, restricted to the ASCII
range (the bot only strips ASCII content). -/
def isPyWhitespace (c : Char) : Bool :=
  c = ' ' || c = '\t' || c = '\n' || c = '\r' || c = '\x0b' || c = '\x0c'

/-- Python `str.strip()`: drop whitespace from both ends. -/
def pyStrip (s : String) : String :=
  ⟨((s.data.dropWhile isPyWhitespace).reverse.dropWhile isPyWhitespace).reverse⟩

/-- Per-character translation table of Python `html.escape` (with its default
`quote=True`): `&`, `<`, `>`, `"` and the single quote are replaced by their
HTML entities, every other character is kept. -/
def escapeChar (c : Char) : String :=
  if c = '&' then "&amp;"
  else if c = '<' then "&lt;"
  else if c = '>' then "&gt;"
  else if c = '"' then "&quot;"
  else if c = '\'' then "&#x27;"
  else String.singleton c

/-- Python `"".join(l)`: concatenation of a list of strings. -/
def concatAll : List String → String
  | [] => ""
  | s :: rest => s ++ concatAll rest

/-- Python `html.escape(s)` (`bot.py` line 98/106): sequential replacement of
`&` first and the other special characters afterwards, which coincides with
the per-character map `escapeChar`. -/
def pyHtmlEscape (s : String) : String :=
  concatAll (s.data.map escapeChar)

/-- Line-boundary characters of Python `str.splitlines()`. -/
def isLineBoundary (c : Char) : Bool :=
  c = '\n' || c = '\r' || c = '\x0b' || c = '\x0c' ||
  c = '\x1c' || c = '\x1d' || c = '\x1e' || c = '\x85' ||
  c = Char.ofNat 0x2028 || c = Char.ofNat 0x2029

/-- Worker for `pySplitlines`: `acc` is the current line, reversed. -/
def pySplitlinesAux : List Char → List Char → List (List Char)
  | [], acc => if acc.isEmpty then [] else [acc.reverse]
  | '\r' :: '\n' :: rest, acc => acc.reverse :: pySplitlinesAux rest []
  | c :: rest, acc =>
    if isLineBoundary c then acc.reverse :: pySplitlinesAux rest []
    else pySplitlinesAux rest (c :: acc)

/-- Python `str.splitlines()`: `\r\n` counts as a single boundary, a trailing
boundary does not produce a final empty line, and `"".splitlines() = []`. -/
def pySplitlines (s : String) : List String :=
  (pySplitlinesAux s.data []).map (fun l => ⟨l⟩)

/-- ASCII alphanumeric test, the character class `[a-zA-Z0-9]` of the
language-tag regex in `format_reply`. -/
def isAsciiAlphanum (c : Char) : Bool :=
  ('a' ≤ c && c ≤ 'z') || ('A' ≤ c && c ≤ 'Z') || ('0' ≤ c && c ≤ '9')

/-- Truth value of `re.match(r"^[a-zA-Z0-9]+$", s)` (`bot.py` line 102):
`s` is nonempty and consists of ASCII alphanumerics only. -/
def langLine (s : String) : Bool :=
  !s.data.isEmpty && s.data.all isAsciiAlphanum

/-- Body of a fenced code part (`bot.py` lines 100-105): if the first line,
stripped, is a language tag, the remaining lines joined with `\n`; otherwise
the part unchanged. -/
def codeBlockBody (part : String) : String :=
  match pySplitlines part with
  | [] => part
  | l0 :: rest =>
    if langLine (pyStrip l0) then String.intercalate "\n" rest else part

/-- Worker modelling `re.split(r"```", reply)` (`bot.py` line 93): split at
every non-overlapping occurrence of three backticks, scanning left to right;
`acc` is the current chunk, reversed. -/
def splitFenceAux : List Char → List Char → List String
  | '`' :: '`' :: '`' :: rest, acc => String.mk acc.reverse :: splitFenceAux rest []
  | c :: rest, acc => splitFenceAux rest (c :: acc)
  | [], acc => [String.mk acc.reverse]

/-- The function `format_reply` of `bot.py` (lines 87-107): split on three
backticks; even-indexed parts are HTML-escaped, odd-indexed (fenced) parts are
stripped of a leading language line, HTML-escaped and wrapped in
`<pre><code>...</code></pre>`; the pieces are joined back. `wrapParts i parts`
processes `parts` whose first element has index `i` in the enumeration. -/
def wrapParts : Nat → List String → List String
  | _, [] => []
  | i, p :: rest =>
    (if i % 2 = 0 then pyHtmlEscape p
     else "<pre><code>" ++ pyHtmlEscape (codeBlockBody p) ++ "</code></pre>") ::
    wrapParts (i + 1) rest

/-- The function `format_reply` of `bot.py` (lines 87-107). -/
def format_reply (reply : String) : String :=
  concatAll (wrapParts 0 (splitFenceAux reply.data []))

/-- Whether three consecutive backticks occur in the character list. -/
def containsFence : List Char → Bool
  | '`' :: '`' :: '`' :: _ => true
  | _ :: rest => containsFence rest
  | [] => false

/-- Modelled from the spec (amended claim C10): alternate the parts produced
by splitting on three backticks, HTML-escaping the parts outside fences and
wrapping each fenced part, HTML-escaped, in `<pre><code>...</code></pre>`,
dropping the first line of a fenced part exactly when that line, after
stripping surrounding whitespace, is a nonempty run of ASCII alphanumeric
characters. -/
def renderAlt : List String → String
  | [] => ""
  | [t] => pyHtmlEscape t
  | t :: c :: rest =>
    pyHtmlEscape t ++
    ("<pre><code>" ++ pyHtmlEscape (codeBlockBody c) ++ "</code></pre>") ++
    renderAlt rest

/-- Modelled from the spec (amended claim C10): reference rendering of a
reply, to be compared with the source-derived `format_reply`. -/
def format_reply_spec (reply : String) : String :=
  renderAlt (splitFenceAux reply.data [])

/-- Digit scanner of Python `int(...)` after sign handling: a nonempty digit
run in which single underscores may appear between digits. The `Bool`
argument records whether the previous character was a digit. -/
def pyDigitsGo : List Char → Nat → Bool → Option Nat
  | [], acc, lastDigit => if lastDigit then some acc else none
  | c :: rest, acc, lastDigit =>
    if c.isDigit then pyDigitsGo rest (acc * 10 + (c.toNat - '0'.toNat)) true
    else if c = '_' then
      (if lastDigit then pyDigitsGo rest acc false else none)
    else none

/-- Python `int(s)` for base 10 on ASCII input: strip whitespace, then an
optional sign followed by digits; `none` models `ValueError`. -/
def pyIntParse (s : String) : Option Int :=
  match (pyStrip s).data with
  | '+' :: rest => (pyDigitsGo rest 0 false).map Int.ofNat
  | '-' :: rest => (pyDigitsGo rest 0 false).map (fun n => -(n : Int))
  | rest => (pyDigitsGo rest 0 false).map Int.ofNat

/-- The list comprehension `[int(uid.strip()) for uid in env.split(",")]`
(`bot.py` line 36): all pieces parsed, or `none` as soon as one raises
`ValueError`. -/
def parseAll : List String → Option (List Int)
  | [] => some []
  | s :: rest =>
    match pyIntParse (pyStrip s) with
    | none => none
    | some n =>
      match parseAll rest with
      | none => none
      | some ns => some (n :: ns)

/-- Worker for `splitComma`; `acc` is the current piece, reversed. -/
def splitCommaAux : List Char → List Char → List String
  | [], acc => [String.mk acc.reverse]
  | c :: rest, acc =>
    if c = ',' then String.mk acc.reverse :: splitCommaAux rest []
    else splitCommaAux rest (c :: acc)

/-- Python `s.split(",")`: the pieces between commas, in order; the empty
string yields `[""]`. -/
def splitComma (s : String) : List String :=
  splitCommaAux s.data []

/-- Computation of `ALLOWED_USER_IDS` (`bot.py` lines 33-41): `env` is
`os.getenv("ALLOWED_USER_IDS", "")`; a falsy (empty) value and a
`ValueError` both yield the empty list. -/
def allowedUserIds (env : Option String) : List Int :=
  let s := env.getD ""
  if s ≠ "" then
    match parseAll (splitComma s) with
    | some ids => ids
    | none => []
  else []

/-- The function `is_user_allowed` of `bot.py` (lines 80-85), applied to the
configured allowlist and the effective user id. -/
def is_user_allowed (ids : List Int) (user_id : Int) : Bool :=
  if ids ≠ [] ∧ user_id ∉ ids then false else true

/-! ## The debounce core: state, events and handlers -/

/-- Lookup in an association list keyed by `Nat`; models Python `dict.get` /
Redis `GET` (absence is `none`). -/
def alookup {α : Type} : List (Nat × α) → Nat → Option α
  | [], _ => none
  | (k, v) :: rest, u => if k = u then some v else alookup rest u

/-- Update in an association list; models Python `d[k] = v` / Redis `SET`. -/
def aset {α : Type} : List (Nat × α) → Nat → α → List (Nat × α)
  | [], u, v => [(u, v)]
  | (k, w) :: rest, u, v =>
    if k = u then (u, v) :: rest else (k, w) :: aset rest u v

/-- Removal from an association list; models Python `del d[k]` / Redis
`DELETE` (removing an absent key is a no-op). -/
def aerase {α : Type} : List (Nat × α) → Nat → List (Nat × α)
  | [], _ => []
  | (k, w) :: rest, u =>
    if k = u then aerase rest u else (k, w) :: aerase rest u

/-- The debounce delay of `bot.py` (`run_once(process_aggregated_text, 5, ...)`,
line 278), in seconds. -/
def delay : Nat := 5

/-- A job handed to `context.job_queue.run_once` (`bot.py` line 278): its
`job_data` is `{user_id, chat_id}`; `fireAt` is the scheduling time plus
`delay`; `jobId` identifies the job object (for the cancellation flag). -/
structure Job where
  jobId : Nat
  user_id : Nat
  chat_id : Nat
  fireAt : Nat
  deriving DecidableEq, Repr

/-- The mutable state the handlers touch directly: the Redis cache of
`pending_text:{user}` keys, the global `user_jobs` dict (`bot.py` line 201),
the set of job ids cancelled via `schedule_removal`, and a counter providing
fresh job ids. -/
structure Core where
  cache : List (Nat × String)
  user_jobs : List (Nat × Nat)
  cancelledIds : List Nat
  nextId : Nat
  deriving DecidableEq, Repr

/-- Full system state: the handler-visible `Core` plus the queue of scheduled
jobs owned by the Telegram `JobQueue` runtime. -/
structure Sys where
  core : Core
  queue : List Job
  deriving DecidableEq, Repr

/-- The initial state: empty cache, no jobs. -/
def initCore : Core := ⟨[], [], [], 0⟩

/-- The initial system state. -/
def initSys : Sys := ⟨initCore, []⟩

/-- Observable external effects: a completion request sent to OpenAI
(`openai.ChatCompletion.create`, the user text being the aggregated buffer)
and a Telegram message sent to a chat (`context.bot.send_message`). -/
inductive Event where
  | completion (user_id : Nat) (text : String)
  | sent (chat_id : Nat) (text : String)
  deriving DecidableEq, Repr

/-- The OpenAI completion capability: `some content` is a successful response
whose message content is `content`; `none` models the call raising. -/
abbrev Oracle := Nat → String → Option String

/-- The fixed reply produced when the completion capability raises
(`bot.py` line 195). -/
def errorReply : String := "Sorry, I encountered an error processing your request."

/-- The function `process_text_input` of `bot.py` (lines 176-196): the
completion call is attempted (the emitted event records it); on success the
content is stripped, on exception the fixed `errorReply` is returned. Model
selection (lines 181-182) does not affect the returned text and is omitted. -/
def process_text_input (oracle : Oracle) (user_id : Nat) (text : String) : String :=
  match oracle user_id text with
  | some content => pyStrip content
  | none => errorReply

/-- The retrieve-and-delete prefix of `process_aggregated_text` (`bot.py`
lines 213-225): `GET pending_text:{user}`; if absent, nothing; otherwise the
key is deleted and the text returned. -/
def drainCache (c : Core) (user_id : Nat) : Option String × Core :=
  match alookup c.cache user_id with
  | none => (none, c)
  | some text => (some text, { c with cache := aerase c.cache user_id })

/-- The function `process_aggregated_text` of `bot.py` (lines 203-235), run
for job `j` (so `job.data` supplies `j.user_id` and `j.chat_id`): drain the
cache (return silently when it is empty), drop the `user_jobs` entry, call
OpenAI through `process_text_input`, and send the formatted reply. The
returned events record the completion call and the outgoing message. -/
def process_aggregated_text (oracle : Oracle) (j : Job) (c : Core) :
    Core × List Event :=
  match drainCache c j.user_id with
  | (none, _) => (c, [])
  | (some text, c1) =>
    let c2 := { c1 with user_jobs := aerase c1.user_jobs j.user_id }
    let reply := process_text_input oracle j.user_id text
    (c2, [Event.completion j.user_id text,
          Event.sent j.chat_id (format_reply reply)])

/-- Modelled from the spec: the Telegram `JobQueue` scheduling primitive
(package `telegram.ext`, outside `src/`) runs a due job's callback only if the
job was not cancelled through `schedule_removal`; a cancelled job is dropped
without running its callback (§4.2/§9 of the spec: flag-based cancellation). -/
def runJob (oracle : Oracle) (j : Job) (c : Core) : Core × List Event :=
  if j.jobId ∈ c.cancelledIds then (c, [])
  else process_aggregated_text oracle j c

/-- Modelled from the spec: the `JobQueue` runtime at time `now` walks the
scheduled jobs in scheduling order, removes every job that is due
(`fireAt ≤ now`) and runs it through `runJob`; jobs not yet due are kept. -/
def fireDueGo (oracle : Oracle) (now : Nat) : List Job → Core →
    List Job × Core × List Event
  | [], c => ([], c, [])
  | j :: rest, c =>
    if j.fireAt ≤ now then
      let p := runJob oracle j c
      let q := fireDueGo oracle now rest p.1
      (q.1, q.2.1, p.2 ++ q.2.2)
    else
      let q := fireDueGo oracle now rest c
      (j :: q.1, q.2.1, q.2.2)

/-- One pass of the `JobQueue` runtime over the whole system state. -/
def fireDue (oracle : Oracle) (now : Nat) (s : Sys) : Sys × List Event :=
  let q := fireDueGo oracle now s.queue s.core
  (⟨q.2.1, q.1⟩, q.2.2)

/-- Abstract labels for the state-changing steps of the `chat` handler, in
the order the source executes them. -/
inductive ChatAction where
  | cancelPrior
  | appendStore
  | scheduleJob
  | registerJob
  deriving DecidableEq, Repr

/-- The handler `chat` of `bot.py` (lines 238-279), for a non-command text
message from `user_id` in chat `cid` arriving at time `now`, instrumented
with the list of steps it performs in source order:
1. lines 256-258: if `user_jobs` holds a job for the user, `schedule_removal`
   marks it cancelled (the registry entry itself is only overwritten later);
2. lines 260-274: read `pending_text:{user}` (absent ↦ `""`), append the new
   text after a newline when the existing text is truthy (nonempty), and
   store the result;
3. lines 276-279: schedule `process_aggregated_text` after `delay` seconds
   with `job_data = {user_id, chat_id}` and register the job in `user_jobs`.
The authorization guard (line 245) and the typing action (line 254) do not
change this state and are omitted. -/
def chat (user_id cid : Nat) (text : String) (now : Nat) (s : Sys) :
    Sys × List ChatAction :=
  let cancelled :=
    match alookup s.core.user_jobs user_id with
    | some jid => (jid :: s.core.cancelledIds, [ChatAction.cancelPrior])
    | none => (s.core.cancelledIds, [])
  let existing := (alookup s.core.cache user_id).getD ""
  let newText := if existing ≠ "" then existing ++ "\n" ++ text else text
  let job : Job := ⟨s.core.nextId, user_id, cid, now + delay⟩
  (⟨{ cache := aset s.core.cache user_id newText,
      user_jobs := aset s.core.user_jobs user_id job.jobId,
      cancelledIds := cancelled.1,
      nextId := s.core.nextId + 1 },
    s.queue ++ [job]⟩,
   cancelled.2 ++ [ChatAction.appendStore, ChatAction.scheduleJob,
                   ChatAction.registerJob])

/-- The state transformation of the `chat` handler. -/
def chatStep (user_id cid : Nat) (text : String) (now : Nat) (s : Sys) : Sys :=
  (chat user_id cid text now s).1

/-! ## Burst runs and reachability -/

/-- Whether an event is a completion request. -/
def isCompletion : Event → Bool
  | Event.completion _ _ => true
  | Event.sent _ _ => false

/-- The completion requests among a list of events. -/
def completions (evs : List Event) : List Event :=
  evs.filter isCompletion

/-- Execution of a sequence of timed fragments from one user: at each arrival
time the `JobQueue` runtime first processes every job that has come due, then
the `chat` handler runs for the fragment. -/
def burstSteps (oracle : Oracle) (u cid : Nat) :
    List (Nat × String) → Sys → Sys × List Event
  | [], s => (s, [])
  | (t, f) :: rest, s =>
    let p := fireDue oracle t s
    let s2 := chatStep u cid f t p.1
    let q := burstSteps oracle u cid rest s2
    (q.1, p.2 ++ q.2)

/-- A full burst: the timed fragments are processed from the initial state,
then the runtime runs once more at time `tEnd` (after the last window has
expired). -/
def runBurst (oracle : Oracle) (u cid : Nat) (frags : List (Nat × String))
    (tEnd : Nat) : Sys × List Event :=
  let p := burstSteps oracle u cid frags initSys
  let q := fireDue oracle tEnd p.1
  (q.1, p.2 ++ q.2)

/-- Timing/contents discipline of a burst continuing after a fragment that
arrived at time `prev`: arrival times are nondecreasing, each gap is strictly
less than `delay`, and every fragment is nonempty (guaranteed upstream by the
`filters.TEXT` handler registration, `bot.py` line 333). -/
def chainOk : Nat → List (Nat × String) → Prop
  | _, [] => True
  | prev, (t, f) :: rest => prev ≤ t ∧ t < prev + delay ∧ f ≠ "" ∧ chainOk t rest

/-- Arrival time of the last fragment (`d` when there is none). -/
def lastTimeOf : Nat → List (Nat × String) → Nat
  | d, [] => d
  | _, (t, _) :: rest => lastTimeOf t rest

/-- Left fold of the `chat` handler's aggregation over the remaining
fragments of a burst. -/
def appendAll (buf : String) (frags : List (Nat × String)) : String :=
  frags.foldl (fun b p => b ++ "\n" ++ p.2) buf

/-- Fragments joined with a single newline separator, in order. -/
def joinFrags : List String → String
  | [] => ""
  | [f] => f
  | f :: g :: rest => f ++ "\n" ++ joinFrags (g :: rest)

/-- Invariant holding mid-burst for a single user `u` with destination `cid`,
accumulated buffer `buf`, after the most recent fragment arrived at `lastT`:
the cache holds `buf` (nonempty); the job queue is a run of cancelled jobs
followed by the one live job, which is registered in `user_jobs` and fires at
`lastT + delay`; job ids are fresh below `nextId`. -/
def BInv (u cid : Nat) (buf : String) (lastT : Nat) (s : Sys) : Prop :=
  alookup s.core.cache u = some buf ∧ buf ≠ "" ∧
  ∃ qs lastId,
    s.queue = qs ++ [⟨lastId, u, cid, lastT + delay⟩] ∧
    alookup s.core.user_jobs u = some lastId ∧
    lastId ∉ s.core.cancelledIds ∧
    (∀ j ∈ qs, j.jobId ∈ s.core.cancelledIds) ∧
    (∀ j ∈ qs, j.fireAt ≤ lastT + delay) ∧
    lastId < s.core.nextId ∧
    (∀ i ∈ s.core.cancelledIds, i < s.core.nextId)

/-- States reachable from the initial state through the two operations:
fragment intake (`chat`, with arbitrary user, chat, text and time) and a pass
of the `JobQueue` runtime (with arbitrary oracle and time). -/
inductive Reachable : Sys → Prop where
  | init : Reachable initSys
  | chat (u cid : Nat) (text : String) (now : Nat) {s : Sys} :
      Reachable s → Reachable (chatStep u cid text now s)
  | fire (oracle : Oracle) (now : Nat) {s : Sys} :
      Reachable s → Reachable (fireDue oracle now s).1

/-- States reachable when every incoming fragment is nonempty (which
`filters.TEXT`, `bot.py` line 333, guarantees: only messages with truthy
text reach the `chat` handler). -/
inductive ReachableNE : Sys → Prop where
  | init : ReachableNE initSys
  | chat (u cid : Nat) (text : String) (now : Nat) {s : Sys} :
      text ≠ "" → ReachableNE s → ReachableNE (chatStep u cid text now s)
  | fire (oracle : Oracle) (now : Nat) {s : Sys} :
      ReachableNE s → ReachableNE (fireDue oracle now s).1

/-- At most one live (uncancelled) scheduled window per user. -/
def AtMostOneLive (s : Sys) : Prop :=
  ∀ j1 ∈ s.queue, ∀ j2 ∈ s.queue, j1.user_id = j2.user_id →
    j1.jobId ∉ s.core.cancelledIds → j2.jobId ∉ s.core.cancelledIds → j1 = j2

/-- Every live scheduled window is the one registered in `user_jobs` for its
user. -/
def LiveRegistered (s : Sys) : Prop :=
  ∀ j ∈ s.queue, j.jobId ∉ s.core.cancelledIds →
    alookup s.core.user_jobs j.user_id = some j.jobId

/-- Well-formedness carried through the reachability induction: queued job
ids are pairwise distinct and fresh below `nextId`, cancelled ids and
registered ids are below `nextId`, and every live queued job is registered
for its user. -/
def WF (s : Sys) : Prop :=
  s.queue.Pairwise (fun a b => a.jobId ≠ b.jobId) ∧
  (∀ j ∈ s.queue, j.jobId < s.core.nextId) ∧
  (∀ i ∈ s.core.cancelledIds, i < s.core.nextId) ∧
  (∀ p ∈ s.core.user_jobs, p.2 < s.core.nextId) ∧
  LiveRegistered s

/-- All cached pending texts are nonempty. -/
def CacheNE (s : Sys) : Prop :=
  ∀ p ∈ s.core.cache, p.2 ≠ ""

/-! ## Association-list lemmas -/

theorem alookup_aset_self {α : Type} (l : List (Nat × α)) (u : Nat) (v : α) :
    alookup (aset l u v) u = some v := by
  induction l with
  | nil => simp [aset, alookup]
  | cons p rest ih =>
    by_cases h : p.1 = u
    · simp [aset, h, alookup]
    · simp [aset, h, alookup, ih]

theorem alookup_aset_ne {α : Type} (l : List (Nat × α)) (u w : Nat) (v : α)
    (h : w ≠ u) : alookup (aset l u v) w = alookup l w := by
  induction l with
  | nil => simp [aset, alookup, Ne.symm h]
  | cons p rest ih =>
    by_cases hp : p.1 = u
    · simp [aset, hp, alookup, Ne.symm h]
    · by_cases hw : p.1 = w
      · simp [aset, hp, alookup, hw, h]
      · simp [aset, hp, alookup, hw, ih]

theorem alookup_aerase_self {α : Type} (l : List (Nat × α)) (u : Nat) :
    alookup (aerase l u) u = none := by
  induction l with
  | nil => simp [aerase, alookup]
  | cons p rest ih =>
    by_cases h : p.1 = u
    · simp [aerase, h, ih]
    · simp [aerase, h, alookup, ih]

theorem alookup_aerase_ne {α : Type} (l : List (Nat × α)) (u w : Nat)
    (h : w ≠ u) : alookup (aerase l u) w = alookup l w := by
  induction l with
  | nil => simp [aerase]
  | cons p rest ih =>
    by_cases hp : p.1 = u
    · simp [aerase, hp, alookup, Ne.symm h, ih]
    · simp [aerase, hp, alookup, ih]

theorem mem_aset {α : Type} (l : List (Nat × α)) (u : Nat) (v : α) (p : Nat × α)
    (h : p ∈ aset l u v) : p ∈ l ∨ p = (u, v) := by
  induction l with
  | nil => simpa [aset] using h
  | cons q rest ih =>
    by_cases hq : q.1 = u
    · simp only [aset, hq, if_pos] at h
      rcases List.mem_cons.mp h with h1 | h1
      · exact Or.inr h1
      · exact Or.inl (List.mem_cons_of_mem _ h1)
    · simp only [aset, hq, if_neg, not_false_iff] at h
      rcases List.mem_cons.mp h with h1 | h1
      · exact Or.inl (h1 ▸ List.mem_cons_self _ _)
      · rcases ih h1 with h2 | h2
        · exact Or.inl (List.mem_cons_of_mem _ h2)
        · exact Or.inr h2

theorem mem_aerase {α : Type} (l : List (Nat × α)) (u : Nat) (p : Nat × α)
    (h : p ∈ aerase l u) : p ∈ l := by
  induction l with
  | nil => simp [aerase] at h
  | cons q rest ih =>
    by_cases hq : q.1 = u
    · simp only [aerase, hq, if_pos] at h
      exact List.mem_cons_of_mem _ (ih h)
    · simp only [aerase, hq, if_neg, not_false_iff] at h
      rcases List.mem_cons.mp h with h1 | h1
      · exact h1 ▸ List.mem_cons_self _ _
      · exact List.mem_cons_of_mem _ (ih h1)

/-! ## The access-control claim (C9) -/

theorem parseAll_eq_none (l : List String)
    (h : ∃ s ∈ l, pyIntParse (pyStrip s) = none) : parseAll l = none := by
  induction l with
  | nil => simp at h
  | cons s rest ih =>
    rcases h with ⟨w, hw, hfail⟩
    rcases List.mem_cons.mp hw with rfl | hmem
    · simp [parseAll, hfail]
    · cases hp : pyIntParse (pyStrip s) with
      | none => simp [parseAll, hp]
      | some n => simp [parseAll, hp, ih ⟨w, hmem, hfail⟩]

/-- Claim C9: when the `ALLOWED_USER_IDS` environment variable is unset,
empty, or fails to parse as comma-separated numbers, the allowlist is empty
and `is_user_allowed` returns `true` for every user; only a non-empty
allowlist restricts access. -/
theorem c9_empty_allowlist (env : Option String) (u : Int)
    (h : env = none ∨ env = some "" ∨
      ∃ s ∈ splitComma (env.getD ""), pyIntParse (pyStrip s) = none) :
    is_user_allowed (allowedUserIds env) u = true := by
  have hempty : allowedUserIds env = [] := by
    rcases h with rfl | rfl | hfail
    · simp [allowedUserIds]
    · simp [allowedUserIds]
    · have hfix := parseAll_eq_none _ hfail
      by_cases hs : env.getD "" = ""
      · simp [allowedUserIds, hs]
      · simp [allowedUserIds, hs, hfix]
  rw [hempty]
  simp [is_user_allowed]

theorem c9_empty_allowlist_witness :
    is_user_allowed (allowedUserIds (some "12,abc")) 7 = true :=
  c9_empty_allowlist (some "12,abc") 7
    (Or.inr (Or.inr ⟨"abc", by decide, by decide⟩))

/-! ## The reply-formatting claim (C10) -/

theorem string_mk_data (s : String) : String.mk s.data = s := by
  cases s
  rfl

theorem wrapParts_parity (l : List String) : ∀ i j : Nat, i % 2 = j % 2 →
    wrapParts i l = wrapParts j l := by
  induction l with
  | nil => intro i j _; rfl
  | cons p rest ih =>
    intro i j h
    simp only [wrapParts, h, ih (i + 1) (j + 1) (by omega)]

theorem concat_wrapParts (l : List String) :
    concatAll (wrapParts 0 l) = renderAlt l := by
  induction l using renderAlt.induct with
  | case1 => rfl
  | case2 t => simp [wrapParts, concatAll, renderAlt, String.append_empty]
  | case3 t c rest ih =>
    simp only [wrapParts, concatAll, renderAlt]
    rw [wrapParts_parity rest 2 0 (by omega)] at *
    simp [ih, String.append_assoc, concatAll]

theorem splitFence_noFence : ∀ cs acc : List Char, containsFence cs = false →
    splitFenceAux cs acc = [String.mk (acc.reverse ++ cs)] := by
  intro cs acc
  induction cs, acc using splitFenceAux.induct with
  | case1 rest acc ih =>
    intro h
    rw [containsFence.eq_1] at h
    exact absurd h (by simp)
  | case2 c rest acc hne ih =>
    intro h
    rw [containsFence.eq_2 _ _ hne] at h
    rw [splitFenceAux.eq_2 _ _ _ hne, ih h]
    simp
  | case3 acc =>
    intro _
    simp [splitFenceAux]

/-- Claim C10, counterexample: for the reply `"``` python \nx```"` the fenced
part's first line is `" python "`, which does not consist solely of
alphanumeric characters (it contains spaces), yet the code drops it, because
line 102 of `bot.py` strips the line before testing it against
`^[a-zA-Z0-9]+$`. The claimed output (the escaped fenced part wrapped
unchanged) therefore differs from the actual output. -/
theorem c10_language_line_counterexample :
    (" python ").data.all isAsciiAlphanum = false ∧
    format_reply "``` python \nx```" = "<pre><code>x</code></pre>" ∧
    format_reply "``` python \nx```" ≠
      "<pre><code>" ++ pyHtmlEscape " python \nx" ++ "</code></pre>" := by
  refine ⟨by decide, by decide, ?_⟩
  decide

/-- Claim C10 as amended: `format_reply` HTML-escapes every part outside
triple-backtick fences (for a reply containing no triple backtick the output
is exactly the HTML-escaped input), and wraps each fenced part, HTML-escaped,
in `<pre><code>...</code></pre>`, dropping the first line of a fenced part
exactly when that line, after stripping surrounding whitespace, is a nonempty
run of alphanumeric characters (a language tag). The first conjunct is the
refinement against `format_reply_spec`, the definition that follows the
amended wording. -/
theorem c10_format_reply_amended :
    (∀ reply, format_reply reply = format_reply_spec reply) ∧
    (∀ reply, containsFence reply.data = false →
      format_reply reply = pyHtmlEscape reply) := by
  constructor
  · intro reply
    exact concat_wrapParts _
  · intro reply h
    rw [format_reply, splitFence_noFence _ _ h]
    simp [wrapParts, concatAll, String.append_empty, string_mk_data]

theorem c10_format_reply_amended_witness :
    format_reply "a<b```py\nc&d```" = format_reply_spec "a<b```py\nc&d```" ∧
    format_reply "x&y" = pyHtmlEscape "x&y" :=
  ⟨c10_format_reply_amended.1 "a<b```py\nc&d```",
   c10_format_reply_amended.2 "x&y" (by decide)⟩

/-! ## Drain idempotence (C7) and failure containment (C4) -/

/-- Claim C7: the drain performed by the Dispatch Trigger (`GET` then
`DELETE` of `pending_text:{user}`, `bot.py` lines 213-225) is a
remove-and-return operation: when an entry is present the first drain
returns it and empties the store, a second drain in a row returns absent and
changes nothing, and a drain finding no entry is a silent no-op — the whole
`process_aggregated_text` returns without any event in that case. (The
destination half of the entry travels in the job's `job_data`, `j.chat_id`,
and accompanies the returned buffer into the dispatch events.) -/
theorem c7_drain_idempotent (oracle : Oracle) (j : Job) (c : Core) :
    (∀ b, alookup c.cache j.user_id = some b →
      (drainCache c j.user_id).1 = some b ∧
      alookup (drainCache c j.user_id).2.cache j.user_id = none ∧
      drainCache (drainCache c j.user_id).2 j.user_id =
        (none, (drainCache c j.user_id).2)) ∧
    (alookup c.cache j.user_id = none →
      drainCache c j.user_id = (none, c) ∧
      process_aggregated_text oracle j c = (c, [])) := by
  constructor
  · intro b hb
    refine ⟨by simp [drainCache, hb], ?_, ?_⟩
    · simp [drainCache, hb, alookup_aerase_self]
    · simp [drainCache, hb, alookup_aerase_self]
  · intro hn
    exact ⟨by simp [drainCache, hn], by simp [process_aggregated_text, drainCache, hn]⟩

theorem c7_drain_idempotent_witness :
    (drainCache ⟨[(1, "hi")], [], [], 0⟩ 1).1 = some "hi" ∧
    alookup (drainCache ⟨[(1, "hi")], [], [], 0⟩ 1).2.cache 1 = none ∧
    drainCache (drainCache ⟨[(1, "hi")], [], [], 0⟩ 1).2 1 =
      (none, (drainCache ⟨[(1, "hi")], [], [], 0⟩ 1).2) :=
  (c7_drain_idempotent (fun _ _ => none) ⟨0, 1, 2, 9⟩ ⟨[(1, "hi")], [], [], 0⟩).1
    "hi" (by decide)

/-- Claim C4: if the completion capability raises during dispatch, the error
is contained at the trigger boundary — `process_text_input` (the `try`/
`except` of `bot.py` lines 187-196) returns the fixed generic message instead
of propagating, the dispatch emits exactly one completion attempt and exactly
one outgoing message, whose text is exactly the fixed failure notice; the
drained aggregation is discarded (the cache entry is gone, so no retry can
see it), and a subsequent fragment `g` from the same user starts a fresh
aggregation containing only `g`. -/
theorem c4_failure_containment (oracle : Oracle) (j : Job) (c : Core)
    (b : String) (hfail : oracle j.user_id b = none)
    (hbuf : alookup c.cache j.user_id = some b)
    (q : List Job) (cid2 : Nat) (g : String) (t : Nat) :
    process_text_input oracle j.user_id b = errorReply ∧
    (process_aggregated_text oracle j c).2 =
      [Event.completion j.user_id b, Event.sent j.chat_id errorReply] ∧
    alookup (process_aggregated_text oracle j c).1.cache j.user_id = none ∧
    alookup (chatStep j.user_id cid2 g t
        ⟨(process_aggregated_text oracle j c).1, q⟩).core.cache j.user_id
      = some g := by
  have hpti : process_text_input oracle j.user_id b = errorReply := by
    simp [process_text_input, hfail]
  have hfr : format_reply errorReply = errorReply := by decide
  refine ⟨hpti, ?_, ?_, ?_⟩
  · simp [process_aggregated_text, drainCache, hbuf, hpti, hfr]
  · simp [process_aggregated_text, drainCache, hbuf, alookup_aerase_self]
  · simp [chatStep, chat, process_aggregated_text, drainCache, hbuf,
      alookup_aerase_self, alookup_aset_self]

/-! ## Burst lemmas: the coalescing invariant -/

theorem append_newline_ne (a b : String) : a ++ "\n" ++ b ≠ "" := by
  intro h
  have hlen := congrArg String.length h
  have h1 : ("\n" : String).length = 1 := rfl
  simp [String.length_append, h1] at hlen

theorem self_ne_append_newline (a b : String) : a ≠ a ++ "\n" ++ b := by
  intro h
  have hlen := congrArg String.length h
  have h1 : ("\n" : String).length = 1 := rfl
  simp [String.length_append, h1] at hlen
  omega

theorem alookup_mem {α : Type} (l : List (Nat × α)) (u : Nat) (v : α)
    (h : alookup l u = some v) : (u, v) ∈ l := by
  induction l with
  | nil => simp [alookup] at h
  | cons p rest ih =>
    obtain ⟨k, w⟩ := p
    by_cases hp : k = u
    · subst hp
      simp only [alookup, if_pos] at h
      cases h
      exact List.mem_cons_self _ _
    · simp only [alookup, hp, if_neg, not_false_iff] at h
      exact List.mem_cons_of_mem _ (ih h)

theorem joinFrags_append_left (a b : String) (l : List String) :
    joinFrags ((a ++ "\n" ++ b) :: l) = a ++ "\n" ++ joinFrags (b :: l) := by
  cases l with
  | nil => rfl
  | cons c rest => simp [joinFrags, String.append_assoc]

theorem appendAll_joinFrags (rest : List (Nat × String)) : ∀ f : String,
    appendAll f rest = joinFrags (f :: rest.map Prod.snd) := by
  induction rest with
  | nil => intro f; rfl
  | cons p r ih =>
    intro f
    obtain ⟨t, g⟩ := p
    show appendAll (f ++ "\n" ++ g) r = joinFrags (f :: g :: r.map Prod.snd)
    rw [ih (f ++ "\n" ++ g), joinFrags_append_left]
    simp [joinFrags]

/-- The `chat` handler extends the mid-burst invariant: the buffer grows by a
newline and the new fragment, the old live window is cancelled and the fresh
one installed. -/
theorem chat_BInv (u cid : Nat) (f buf : String) (lastT t : Nat) (s : Sys)
    (hinv : BInv u cid buf lastT s) (ht : lastT ≤ t) :
    BInv u cid (buf ++ "\n" ++ f) t (chatStep u cid f t s) := by
  obtain ⟨hcache, hne, qs, lastId, hqueue, hreg, hlive, hqcan, hqfire, hlt, hcanlt⟩ := hinv
  have hstep : chatStep u cid f t s =
      ⟨{ cache := aset s.core.cache u (buf ++ "\n" ++ f),
         user_jobs := aset s.core.user_jobs u s.core.nextId,
         cancelledIds := lastId :: s.core.cancelledIds,
         nextId := s.core.nextId + 1 },
       s.queue ++ [⟨s.core.nextId, u, cid, t + delay⟩]⟩ := by
    simp [chatStep, chat, hreg, hcache, hne]
  rw [hstep]
  dsimp only [BInv]
  refine ⟨alookup_aset_self _ _ _, append_newline_ne _ _,
    qs ++ [⟨lastId, u, cid, lastT + delay⟩], s.core.nextId, ?_, ?_, ?_, ?_, ?_, ?_, ?_⟩
  · rw [hqueue]
  · exact alookup_aset_self _ _ _
  · intro hmem
    rcases List.mem_cons.mp hmem with h1 | h1
    · omega
    · exact absurd (hcanlt _ h1) (by omega)
  · intro j hj
    rcases List.mem_append.mp hj with h1 | h1
    · exact List.mem_cons_of_mem _ (hqcan j h1)
    · rcases List.mem_singleton.mp h1 with rfl
      exact List.mem_cons_self _ _
  · intro j hj
    rcases List.mem_append.mp hj with h1 | h1
    · have := hqfire j h1
      omega
    · rcases List.mem_singleton.mp h1 with rfl
      show lastT + delay ≤ t + delay
      omega
  · omega
  · intro i hi
    rcases List.mem_cons.mp hi with rfl | h1
    · omega
    · have := hcanlt i h1
      omega

/-- When every due job in the queue is cancelled, the runtime pass removes
the due jobs, changes no state and emits no event. -/
theorem fireDueGo_skip (oracle : Oracle) (now : Nat) :
    ∀ (Q : List Job) (c : Core),
      (∀ j ∈ Q, j.fireAt ≤ now → j.jobId ∈ c.cancelledIds) →
      fireDueGo oracle now Q c =
        (Q.filter (fun j => !decide (j.fireAt ≤ now)), c, []) := by
  intro Q
  induction Q with
  | nil => intro c _; rfl
  | cons j rest ih =>
    intro c h
    have hrest := ih c (fun jj hj hf => h jj (List.mem_cons_of_mem _ hj) hf)
    by_cases hd : j.fireAt ≤ now
    · have hc : j.jobId ∈ c.cancelledIds := h j (List.mem_cons_self _ _) hd
      simp [fireDueGo, hd, runJob, hc, hrest, List.filter_cons]
    · simp [fireDueGo, hd, hrest, List.filter_cons]

/-- A runtime pass strictly before the live window's deadline emits nothing
and preserves the mid-burst invariant. -/
theorem fireDue_before (oracle : Oracle) (now u cid : Nat) (buf : String)
    (lastT : Nat) (s : Sys) (hinv : BInv u cid buf lastT s)
    (hnow : now < lastT + delay) :
    (fireDue oracle now s).2 = [] ∧
    BInv u cid buf lastT (fireDue oracle now s).1 := by
  obtain ⟨hcache, hne, qs, lastId, hqueue, hreg, hlive, hqcan, hqfire, hlt, hcanlt⟩ := hinv
  have hside : ∀ j ∈ s.queue, j.fireAt ≤ now → j.jobId ∈ s.core.cancelledIds := by
    intro j hj hf
    rw [hqueue] at hj
    rcases List.mem_append.mp hj with h1 | h1
    · exact hqcan j h1
    · rcases List.mem_singleton.mp h1 with rfl
      exfalso
      simp at hf
      omega
  have hfd : fireDue oracle now s =
      (⟨s.core, s.queue.filter (fun j => !decide (j.fireAt ≤ now))⟩, []) := by
    simp [fireDue, fireDueGo_skip oracle now s.queue s.core hside]
  rw [hfd]
  refine ⟨rfl, ?_⟩
  dsimp only [BInv]
  have hkeep : ¬ (lastT + delay ≤ now) := by omega
  refine ⟨hcache, hne, qs.filter (fun j => !decide (j.fireAt ≤ now)), lastId,
    ?_, hreg, hlive, ?_, ?_, hlt, hcanlt⟩
  · rw [hqueue, List.filter_append]
    congr 1
    simp [List.filter_cons, hkeep]
  · intro j hj
    exact hqcan j (List.mem_filter.mp hj).1
  · intro j hj
    exact hqfire j (List.mem_filter.mp hj).1

/-- Walking a run of cancelled due jobs followed by the live due window
drains the buffer once: the cache and registry entries for the user go away
and exactly one completion and one send are emitted. -/
theorem fireDueGo_final (oracle : Oracle) (now u cid lastId lastT : Nat)
    (buf : String) :
    ∀ (qs : List Job) (c : Core),
      (∀ j ∈ qs, j.jobId ∈ c.cancelledIds) →
      (∀ j ∈ qs, j.fireAt ≤ now) →
      lastT + delay ≤ now →
      lastId ∉ c.cancelledIds →
      alookup c.cache u = some buf →
      fireDueGo oracle now (qs ++ [⟨lastId, u, cid, lastT + delay⟩]) c =
        ([], { cache := aerase c.cache u, user_jobs := aerase c.user_jobs u,
               cancelledIds := c.cancelledIds, nextId := c.nextId },
         [Event.completion u buf,
          Event.sent cid (format_reply (process_text_input oracle u buf))]) := by
  intro qs
  induction qs with
  | nil =>
    intro c _ _ hlastdue hlive hcache
    simp [fireDueGo, hlastdue, runJob, hlive, process_aggregated_text,
      drainCache, hcache]
  | cons j rest ih =>
    intro c hcan hdue hlastdue hlive hcache
    have hd : j.fireAt ≤ now := hdue j (List.mem_cons_self _ _)
    have hc : j.jobId ∈ c.cancelledIds := hcan j (List.mem_cons_self _ _)
    have hrest := ih c (fun jj hj => hcan jj (List.mem_cons_of_mem _ hj))
      (fun jj hj => hdue jj (List.mem_cons_of_mem _ hj)) hlastdue hlive hcache
    simp [fireDueGo, hd, runJob, hc, hrest]

/-- A runtime pass at or after the live window's deadline performs the
dispatch exactly once and clears all per-user state. -/
theorem fireDue_final (oracle : Oracle) (now u cid : Nat) (buf : String)
    (lastT : Nat) (s : Sys) (hinv : BInv u cid buf lastT s)
    (hnow : lastT + delay ≤ now) :
    fireDue oracle now s =
      (⟨{ cache := aerase s.core.cache u, user_jobs := aerase s.core.user_jobs u,
          cancelledIds := s.core.cancelledIds, nextId := s.core.nextId }, []⟩,
       [Event.completion u buf,
        Event.sent cid (format_reply (process_text_input oracle u buf))]) := by
  obtain ⟨hcache, hne, qs, lastId, hqueue, hreg, hlive, hqcan, hqfire, hlt, hcanlt⟩ := hinv
  have h := fireDueGo_final oracle now u cid lastId lastT buf qs s.core hqcan
    (fun j hj => le_trans (hqfire j hj) hnow) hnow hlive hcache
  simp [fireDue, hqueue, h]

/-- Master lemma: processing the remaining fragments of a burst from a state
satisfying the mid-burst invariant emits no event and extends the invariant
over the whole burst. -/
theorem burst_master (oracle : Oracle) (u cid : Nat) :
    ∀ (frags : List (Nat × String)) (s : Sys) (buf : String) (lastT : Nat),
      BInv u cid buf lastT s → chainOk lastT frags →
      (burstSteps oracle u cid frags s).2 = [] ∧
      BInv u cid (appendAll buf frags) (lastTimeOf lastT frags)
        (burstSteps oracle u cid frags s).1 := by
  intro frags
  induction frags with
  | nil =>
    intro s buf lastT hinv _
    exact ⟨rfl, hinv⟩
  | cons p rest ih =>
    obtain ⟨t, f⟩ := p
    intro s buf lastT hinv hchain
    obtain ⟨h1, h2, h3, h4⟩ := hchain
    have hfire := fireDue_before oracle t u cid buf lastT s hinv h2
    have hchat := chat_BInv u cid f buf lastT t (fireDue oracle t s).1 hfire.2 h1
    have hrest := ih (chatStep u cid f t (fireDue oracle t s).1)
      (buf ++ "\n" ++ f) t hchat h4
    constructor
    · show (fireDue oracle t s).2 ++
        (burstSteps oracle u cid rest
          (chatStep u cid f t (fireDue oracle t s).1)).2 = []
      rw [hfire.1, hrest.1]
      rfl
    · exact hrest.2

/-- Full characterisation of a coalescing burst: events and final state. -/
theorem runBurst_spec (oracle : Oracle) (u cid t1 : Nat) (f1 : String)
    (rest : List (Nat × String)) (tEnd : Nat)
    (hf1 : f1 ≠ "") (hchain : chainOk t1 rest)
    (hend : lastTimeOf t1 rest + delay ≤ tEnd) :
    (runBurst oracle u cid ((t1, f1) :: rest) tEnd).2 =
      [Event.completion u (joinFrags (f1 :: rest.map Prod.snd)),
       Event.sent cid (format_reply (process_text_input oracle u
         (joinFrags (f1 :: rest.map Prod.snd))))] ∧
    alookup (runBurst oracle u cid ((t1, f1) :: rest) tEnd).1.core.cache u = none ∧
    alookup (runBurst oracle u cid ((t1, f1) :: rest) tEnd).1.core.user_jobs u = none ∧
    (runBurst oracle u cid ((t1, f1) :: rest) tEnd).1.queue = [] := by
  have hfire0 : fireDue oracle t1 initSys = (initSys, []) := rfl
  have hinv1 : BInv u cid f1 t1 (chatStep u cid f1 t1 initSys) := by
    dsimp only [BInv]
    refine ⟨?_, hf1, [], 0, ?_, ?_, ?_, ?_, ?_, ?_, ?_⟩ <;>
      simp [chatStep, chat, initSys, initCore, alookup, aset]
  have hmaster := burst_master oracle u cid rest (chatStep u cid f1 t1 initSys)
    f1 t1 hinv1 hchain
  have hfinal := fireDue_final oracle tEnd u cid (appendAll f1 rest)
    (lastTimeOf t1 rest) (burstSteps oracle u cid rest
      (chatStep u cid f1 t1 initSys)).1 hmaster.2 hend
  have hsteps : burstSteps oracle u cid ((t1, f1) :: rest) initSys =
      ((burstSteps oracle u cid rest (chatStep u cid f1 t1 initSys)).1,
       (burstSteps oracle u cid rest (chatStep u cid f1 t1 initSys)).2) := by
    show ((burstSteps oracle u cid rest
        (chatStep u cid f1 t1 (fireDue oracle t1 initSys).1)).1,
      (fireDue oracle t1 initSys).2 ++
        (burstSteps oracle u cid rest
          (chatStep u cid f1 t1 (fireDue oracle t1 initSys).1)).2) = _
    rw [hfire0]
    rfl
  have hjoin : appendAll f1 rest = joinFrags (f1 :: rest.map Prod.snd) :=
    appendAll_joinFrags rest f1
  have hrb : runBurst oracle u cid ((t1, f1) :: rest) tEnd =
      ((fireDue oracle tEnd (burstSteps oracle u cid rest
          (chatStep u cid f1 t1 initSys)).1).1,
       (burstSteps oracle u cid rest (chatStep u cid f1 t1 initSys)).2 ++
       (fireDue oracle tEnd (burstSteps oracle u cid rest
          (chatStep u cid f1 t1 initSys)).1).2) := by
    show ((fireDue oracle tEnd (burstSteps oracle u cid ((t1, f1) :: rest) initSys).1).1,
      (burstSteps oracle u cid ((t1, f1) :: rest) initSys).2 ++
      (fireDue oracle tEnd (burstSteps oracle u cid ((t1, f1) :: rest) initSys).1).2) = _
    rw [hsteps]
  rw [hrb, hmaster.1, hfinal, hjoin]
  refine ⟨rfl, ?_, ?_, rfl⟩
  · exact alookup_aerase_self _ _
  · exact alookup_aerase_self _ _

/-- Claim C1: for every burst of fragments from one user, each arriving
strictly within `delay` of the previous one (all nonempty, as `filters.TEXT`
guarantees), exactly one completion call is made once the window expires, and
its input text is the fragments concatenated in arrival order with a single
newline separator between consecutive fragments. -/
theorem c1_coalescing (oracle : Oracle) (u cid t1 : Nat) (f1 : String)
    (rest : List (Nat × String)) (tEnd : Nat)
    (hf1 : f1 ≠ "") (hchain : chainOk t1 rest)
    (hend : lastTimeOf t1 rest + delay ≤ tEnd) :
    completions (runBurst oracle u cid ((t1, f1) :: rest) tEnd).2 =
      [Event.completion u (joinFrags (f1 :: rest.map Prod.snd))] := by
  have h := runBurst_spec oracle u cid t1 f1 rest tEnd hf1 hchain hend
  rw [completions, h.1]
  rfl

theorem c1_coalescing_witness :
    completions (runBurst (fun _ _ => some "ok") 1 2
        [(0, "Hello"), (1, "world")] 6).2 =
      [Event.completion 1 (joinFrags ("Hello" ::
        [((1 : Nat), "world")].map Prod.snd))] :=
  c1_coalescing (fun _ _ => some "ok") 1 2 0 "Hello" [(1, "world")] 6
    (by decide) ⟨by decide, by decide, by decide, trivial⟩ (by decide)

/-- Claim C2: a cancelled ScheduledWindow never runs its drain-and-dispatch
logic. The first conjunct is the runtime guarantee (modelled from the spec,
since the `JobQueue` cancellation machinery lives in `telegram.ext`, outside
`src/`): running a job whose id carries the cancellation flag changes nothing
and emits nothing, whatever the state. The second conjunct closes the
scenario: when `f2` arrives within `delay` of `f1`, no dispatch containing
only `f1` ever occurs — the single completion carries `f1 ++ "\n" ++ f2`. -/
theorem c2_cancelled_window_noop :
    (∀ (oracle : Oracle) (j : Job) (c : Core), j.jobId ∈ c.cancelledIds →
      runJob oracle j c = (c, [])) ∧
    (∀ (oracle : Oracle) (u cid t1 t2 tEnd : Nat) (f1 f2 : String),
      f1 ≠ "" → f2 ≠ "" → t1 ≤ t2 → t2 < t1 + delay → t2 + delay ≤ tEnd →
      Event.completion u f1 ∉
        (runBurst oracle u cid [(t1, f1), (t2, f2)] tEnd).2 ∧
      completions (runBurst oracle u cid [(t1, f1), (t2, f2)] tEnd).2 =
        [Event.completion u (f1 ++ "\n" ++ f2)]) := by
  constructor
  · intro oracle j c h
    simp [runJob, h]
  · intro oracle u cid t1 t2 tEnd f1 f2 hf1 hf2 h12 hlt hend
    have h := runBurst_spec oracle u cid t1 f1 [(t2, f2)] tEnd hf1
      ⟨h12, hlt, hf2, trivial⟩ hend
    have hj : joinFrags (f1 :: [((t2 : Nat), f2)].map Prod.snd) =
        f1 ++ "\n" ++ f2 := rfl
    rw [hj] at h
    refine ⟨?_, ?_⟩
    · rw [h.1]
      simp [self_ne_append_newline f1 f2]
    · rw [completions, h.1]
      rfl

theorem c2_cancelled_window_noop_witness :
    Event.completion 3 "x" ∉
      (runBurst (fun _ _ => some "r") 3 4 [(0, "x"), (4, "y")] 9).2 ∧
    completions (runBurst (fun _ _ => some "r") 3 4 [(0, "x"), (4, "y")] 9).2 =
      [Event.completion 3 ("x" ++ "\n" ++ "y")] :=
  c2_cancelled_window_noop.2 (fun _ _ => some "r") 3 4 0 4 9 "x" "y"
    (by decide) (by decide) (by decide) (by decide) (by decide)

/-- Claim C3: in a single continuous burst the Dispatch Trigger fires exactly
once; afterwards the aggregation store holds no entry for the user, no job
remains registered for the user, and the job queue has been fully drained, so
the pending aggregation was drained and forwarded exactly once. -/
theorem c3_at_most_once_dispatch (oracle : Oracle) (u cid t1 : Nat)
    (f1 : String) (rest : List (Nat × String)) (tEnd : Nat)
    (hf1 : f1 ≠ "") (hchain : chainOk t1 rest)
    (hend : lastTimeOf t1 rest + delay ≤ tEnd) :
    (completions (runBurst oracle u cid ((t1, f1) :: rest) tEnd).2).length = 1 ∧
    alookup (runBurst oracle u cid ((t1, f1) :: rest) tEnd).1.core.cache u
      = none ∧
    alookup (runBurst oracle u cid ((t1, f1) :: rest) tEnd).1.core.user_jobs u
      = none ∧
    (runBurst oracle u cid ((t1, f1) :: rest) tEnd).1.queue = [] := by
  have h := runBurst_spec oracle u cid t1 f1 rest tEnd hf1 hchain hend
  refine ⟨?_, h.2.1, h.2.2.1, h.2.2.2⟩
  rw [completions, h.1]
  rfl

theorem c3_at_most_once_dispatch_witness :
    (completions (runBurst (fun _ _ => some "ok") 5 6
        [(0, "a"), (2, "b"), (4, "c")] 9).2).length = 1 ∧
    alookup (runBurst (fun _ _ => some "ok") 5 6
        [(0, "a"), (2, "b"), (4, "c")] 9).1.core.cache 5 = none ∧
    alookup (runBurst (fun _ _ => some "ok") 5 6
        [(0, "a"), (2, "b"), (4, "c")] 9).1.core.user_jobs 5 = none ∧
    (runBurst (fun _ _ => some "ok") 5 6
        [(0, "a"), (2, "b"), (4, "c")] 9).1.queue = [] :=
  c3_at_most_once_dispatch (fun _ _ => some "ok") 5 6 0 "a"
    [(2, "b"), (4, "c")] 9 (by decide)
    ⟨by decide, by decide, by decide, by decide, by decide, by decide, trivial⟩
    (by decide)

/-! ## The single-live-window invariant (C5) -/

/-- A job run either leaves the core unchanged (cancelled, or nothing
buffered) or, when it drains, only erases the user's cache and registry
entries. -/
theorem runJob_shape (oracle : Oracle) (j : Job) (c : Core) :
    runJob oracle j c = (c, []) ∨
    (j.jobId ∉ c.cancelledIds ∧
     (runJob oracle j c).1 =
       { cache := aerase c.cache j.user_id,
         user_jobs := aerase c.user_jobs j.user_id,
         cancelledIds := c.cancelledIds, nextId := c.nextId }) := by
  by_cases hc : j.jobId ∈ c.cancelledIds
  · left
    simp [runJob, hc]
  · cases hcache : alookup c.cache j.user_id with
    | none =>
      left
      simp [runJob, hc, process_aggregated_text, drainCache, hcache]
    | some b =>
      right
      exact ⟨hc, by simp [runJob, hc, process_aggregated_text, drainCache, hcache]⟩

/-- A runtime pass never invents state: cancelled ids and the id counter are
untouched, registry and cache entries only disappear, and the remaining
queue is a sublist of the original. -/
theorem fireDueGo_core_shape (oracle : Oracle) (now : Nat) :
    ∀ (Q : List Job) (c : Core),
      (fireDueGo oracle now Q c).2.1.cancelledIds = c.cancelledIds ∧
      (fireDueGo oracle now Q c).2.1.nextId = c.nextId ∧
      (∀ p ∈ (fireDueGo oracle now Q c).2.1.user_jobs, p ∈ c.user_jobs) ∧
      (∀ p ∈ (fireDueGo oracle now Q c).2.1.cache, p ∈ c.cache) ∧
      List.Sublist (fireDueGo oracle now Q c).1 Q := by
  intro Q
  induction Q with
  | nil =>
    intro c
    exact ⟨rfl, rfl, fun p hp => hp, fun p hp => hp, List.nil_sublist _⟩
  | cons j rest ih =>
    intro c
    by_cases hd : j.fireAt ≤ now
    · rcases runJob_shape oracle j c with hrj | ⟨hlive, hrj⟩
      · have heq : fireDueGo oracle now (j :: rest) c =
            fireDueGo oracle now rest c := by
          simp [fireDueGo, hd, hrj]
        rw [heq]
        obtain ⟨i1, i2, i3, i4, i5⟩ := ih c
        exact ⟨i1, i2, i3, i4, i5.cons _⟩
      · have heq : fireDueGo oracle now (j :: rest) c =
            ((fireDueGo oracle now rest (runJob oracle j c).1).1,
             (fireDueGo oracle now rest (runJob oracle j c).1).2.1,
             (runJob oracle j c).2 ++
               (fireDueGo oracle now rest (runJob oracle j c).1).2.2) := by
          simp [fireDueGo, hd]
        rw [heq, hrj]
        obtain ⟨i1, i2, i3, i4, i5⟩ := ih
          { cache := aerase c.cache j.user_id,
            user_jobs := aerase c.user_jobs j.user_id,
            cancelledIds := c.cancelledIds, nextId := c.nextId }
        refine ⟨i1, i2, ?_, ?_, i5.cons _⟩
        · intro p hp
          exact mem_aerase _ _ _ (i3 p hp)
        · intro p hp
          exact mem_aerase _ _ _ (i4 p hp)
    · have heq : fireDueGo oracle now (j :: rest) c =
          (j :: (fireDueGo oracle now rest c).1,
           (fireDueGo oracle now rest c).2.1,
           (fireDueGo oracle now rest c).2.2) := by
        simp [fireDueGo, hd]
      rw [heq]
      obtain ⟨i1, i2, i3, i4, i5⟩ := ih c
      exact ⟨i1, i2, i3, i4, i5.cons₂ _⟩

/-- A runtime pass over a well-registered queue keeps the registry exact:
a user's registry entry changes only when a live job of that user was
processed, and every surviving live job remains registered. -/
theorem fireDueGo_registry (oracle : Oracle) (now : Nat) :
    ∀ (Q : List Job) (c : Core),
      Q.Pairwise (fun a b => a.jobId ≠ b.jobId) →
      (∀ j ∈ Q, j.jobId ∉ c.cancelledIds →
        alookup c.user_jobs j.user_id = some j.jobId) →
      (∀ u', alookup (fireDueGo oracle now Q c).2.1.user_jobs u' =
          alookup c.user_jobs u' ∨
        ∃ j ∈ Q, j.jobId ∉ c.cancelledIds ∧ j.user_id = u') ∧
      (∀ j ∈ (fireDueGo oracle now Q c).1, j.jobId ∉ c.cancelledIds →
        alookup (fireDueGo oracle now Q c).2.1.user_jobs j.user_id =
          some j.jobId) := by
  intro Q
  induction Q with
  | nil =>
    intro c _ _
    exact ⟨fun u' => Or.inl rfl, by simp [fireDueGo]⟩
  | cons j rest ih =>
    intro c hpw hreg
    obtain ⟨hhead, htail⟩ := List.pairwise_cons.mp hpw
    have hregr : ∀ jj ∈ rest, jj.jobId ∉ c.cancelledIds →
        alookup c.user_jobs jj.user_id = some jj.jobId :=
      fun jj hj hl => hreg jj (List.mem_cons_of_mem _ hj) hl
    by_cases hd : j.fireAt ≤ now
    · rcases runJob_shape oracle j c with hrj | ⟨hlive, hrj⟩
      · have heq : fireDueGo oracle now (j :: rest) c =
            fireDueGo oracle now rest c := by
          simp [fireDueGo, hd, hrj]
        rw [heq]
        obtain ⟨i1, i2⟩ := ih c htail hregr
        refine ⟨?_, i2⟩
        intro u'
        rcases i1 u' with h1 | ⟨jj, hjj, hl, hu⟩
        · exact Or.inl h1
        · exact Or.inr ⟨jj, List.mem_cons_of_mem _ hjj, hl, hu⟩
      · have heq : fireDueGo oracle now (j :: rest) c =
            ((fireDueGo oracle now rest (runJob oracle j c).1).1,
             (fireDueGo oracle now rest (runJob oracle j c).1).2.1,
             (runJob oracle j c).2 ++
               (fireDueGo oracle now rest (runJob oracle j c).1).2.2) := by
          simp [fireDueGo, hd]
        rw [heq, hrj]
        have hregr' : ∀ jj ∈ rest,
            jj.jobId ∉ c.cancelledIds →
            alookup (aerase c.user_jobs j.user_id) jj.user_id =
              some jj.jobId := by
          intro jj hjj hl
          by_cases hu : jj.user_id = j.user_id
          · exfalso
            have e1 := hregr jj hjj hl
            have e2 := hreg j (List.mem_cons_self _ _) hlive
            rw [hu, e2] at e1
            exact hhead jj hjj (Option.some.inj e1)
          · rw [alookup_aerase_ne _ _ _ hu]
            exact hregr jj hjj hl
        obtain ⟨i1, i2⟩ := ih
          { cache := aerase c.cache j.user_id,
            user_jobs := aerase c.user_jobs j.user_id,
            cancelledIds := c.cancelledIds, nextId := c.nextId }
          htail hregr'
        refine ⟨?_, i2⟩
        intro u'
        rcases i1 u' with h1 | ⟨jj, hjj, hl, hu⟩
        · by_cases hu : u' = j.user_id
          · exact Or.inr ⟨j, List.mem_cons_self _ _, hlive, hu.symm⟩
          · rw [alookup_aerase_ne _ _ _ hu] at h1
            exact Or.inl h1
        · exact Or.inr ⟨jj, List.mem_cons_of_mem _ hjj, hl, hu⟩
    · have heq : fireDueGo oracle now (j :: rest) c =
          (j :: (fireDueGo oracle now rest c).1,
           (fireDueGo oracle now rest c).2.1,
           (fireDueGo oracle now rest c).2.2) := by
        simp [fireDueGo, hd]
      rw [heq]
      obtain ⟨i1, i2⟩ := ih c htail hregr
      refine ⟨?_, ?_⟩
      · intro u'
        rcases i1 u' with h1 | ⟨jj, hjj, hl, hu⟩
        · exact Or.inl h1
        · exact Or.inr ⟨jj, List.mem_cons_of_mem _ hjj, hl, hu⟩
      · intro jj hmem hl
        rcases List.mem_cons.mp hmem with rfl | h1
        · rcases i1 jj.user_id with h1 | ⟨j2, hj2, hl2, hu2⟩
          · rw [h1]
            exact hreg jj (List.mem_cons_self _ _) hl
          · exfalso
            have e1 := hregr j2 hj2 hl2
            have e2 := hreg jj (List.mem_cons_self _ _) hl
            rw [hu2, e2] at e1
            exact hhead j2 hj2 (Option.some.inj e1)
        · exact i2 jj h1 hl

/-- The `chat` handler preserves well-formedness. -/
theorem chat_WF (u cid : Nat) (text : String) (now : Nat) (s : Sys)
    (h : WF s) : WF (chatStep u cid text now s) := by
  obtain ⟨hpw, hqlt, hclt, hujlt, hreg⟩ := h
  have hqueue : (chatStep u cid text now s).queue =
      s.queue ++ [⟨s.core.nextId, u, cid, now + delay⟩] := rfl
  have hnext : (chatStep u cid text now s).core.nextId = s.core.nextId + 1 := rfl
  have huj : (chatStep u cid text now s).core.user_jobs =
      aset s.core.user_jobs u s.core.nextId := rfl
  have hcan : ((chatStep u cid text now s).core.cancelledIds =
        s.core.cancelledIds ∧ alookup s.core.user_jobs u = none) ∨
      (∃ jid, alookup s.core.user_jobs u = some jid ∧
        (chatStep u cid text now s).core.cancelledIds =
          jid :: s.core.cancelledIds) := by
    cases hj : alookup s.core.user_jobs u with
    | none => exact Or.inl ⟨by simp [chatStep, chat, hj], rfl⟩
    | some jid => exact Or.inr ⟨jid, rfl, by simp [chatStep, chat, hj]⟩
  refine ⟨?_, ?_, ?_, ?_, ?_⟩
  · rw [hqueue]
    refine List.pairwise_append.mpr ⟨hpw, by simp, ?_⟩
    intro a ha b hb
    rcases List.mem_singleton.mp hb with rfl
    exact Nat.ne_of_lt (hqlt a ha)
  · rw [hqueue, hnext]
    intro j hj
    rcases List.mem_append.mp hj with h1 | h1
    · exact Nat.lt_succ_of_lt (hqlt j h1)
    · rcases List.mem_singleton.mp h1 with rfl
      exact Nat.lt_succ_self _
  · rw [hnext]
    rcases hcan with ⟨hc, _⟩ | ⟨jid, hjid, hc⟩
    · rw [hc]
      intro i hi
      exact Nat.lt_succ_of_lt (hclt i hi)
    · rw [hc]
      intro i hi
      rcases List.mem_cons.mp hi with rfl | h1
      · exact Nat.lt_succ_of_lt (hujlt _ (alookup_mem _ _ _ hjid))
      · exact Nat.lt_succ_of_lt (hclt i h1)
  · rw [huj, hnext]
    intro p hp
    rcases mem_aset _ _ _ _ hp with h1 | h1
    · exact Nat.lt_succ_of_lt (hujlt p h1)
    · rcases h1 with rfl
      exact Nat.lt_succ_self _
  · dsimp only [LiveRegistered]
    rw [hqueue, huj]
    rcases hcan with ⟨hc, hj⟩ | ⟨jid, hj, hc⟩ <;> rw [hc] <;>
      intro j hmem hlive <;> rcases List.mem_append.mp hmem with h1 | h1
    · by_cases hu : j.user_id = u
      · exfalso
        have e := hreg j h1 hlive
        rw [hu, hj] at e
        cases e
      · rw [alookup_aset_ne _ _ _ _ hu]
        exact hreg j h1 hlive
    · rcases List.mem_singleton.mp h1 with rfl
      exact alookup_aset_self _ _ _
    · have h2 : j.jobId ≠ jid :=
        fun he => hlive (he ▸ List.mem_cons_self _ _)
      have h3 : j.jobId ∉ s.core.cancelledIds :=
        fun hm => hlive (List.mem_cons_of_mem _ hm)
      by_cases hu : j.user_id = u
      · exfalso
        have e := hreg j h1 h3
        rw [hu, hj] at e
        exact h2 (Option.some.inj e).symm
      · rw [alookup_aset_ne _ _ _ _ hu]
        exact hreg j h1 h3
    · rcases List.mem_singleton.mp h1 with rfl
      exact alookup_aset_self _ _ _

/-- A runtime pass preserves well-formedness. -/
theorem fireDue_WF (oracle : Oracle) (now : Nat) (s : Sys) (h : WF s) :
    WF (fireDue oracle now s).1 := by
  obtain ⟨hpw, hqlt, hclt, hujlt, hreg⟩ := h
  obtain ⟨i1, i2, i3, i4, i5⟩ := fireDueGo_core_shape oracle now s.queue s.core
  obtain ⟨r1, r2⟩ := fireDueGo_registry oracle now s.queue s.core hpw hreg
  have hq : (fireDue oracle now s).1.queue =
      (fireDueGo oracle now s.queue s.core).1 := rfl
  have hcore : (fireDue oracle now s).1.core =
      (fireDueGo oracle now s.queue s.core).2.1 := rfl
  refine ⟨?_, ?_, ?_, ?_, ?_⟩
  · rw [hq]
    exact List.Pairwise.sublist i5 hpw
  · rw [hq, hcore, i2]
    intro j hj
    exact hqlt j (i5.subset hj)
  · rw [hcore, i1, i2]
    exact hclt
  · rw [hcore, i2]
    intro p hp
    exact hujlt p (i3 p hp)
  · dsimp only [LiveRegistered]
    rw [hq, hcore, i1]
    exact r2

/-- Every reachable state is well-formed. -/
theorem reachable_WF (s : Sys) (h : Reachable s) : WF s := by
  induction h with
  | init =>
    refine ⟨?_, ?_, ?_, ?_, ?_⟩ <;> simp [initSys, initCore, LiveRegistered]
  | chat u cid text now hr ih => exact chat_WF u cid text now _ ih
  | fire oracle now hr ih => exact fireDue_WF oracle now _ ih

/-- Claim C5: in every reachable state there is at most one live
(uncancelled) ScheduledWindow per user, and each live window is exactly the
one registered in `user_jobs` for its user — each new fragment cancels the
previous window before installing its replacement (`bot.py` lines 256-258,
279), and a fired window deregisters itself (lines 227-229). -/
theorem c5_single_live_window (s : Sys) (h : Reachable s) :
    AtMostOneLive s ∧ LiveRegistered s := by
  obtain ⟨hpw, _, _, _, hreg⟩ := reachable_WF s h
  refine ⟨?_, hreg⟩
  intro j1 h1 j2 h2 huser hl1 hl2
  have e1 := hreg j1 h1 hl1
  have e2 := hreg j2 h2 hl2
  rw [huser, e2] at e1
  have hid : j2.jobId = j1.jobId := Option.some.inj e1
  by_contra hne
  exact List.Pairwise.forall (fun _ _ hh => Ne.symm hh) hpw h1 h2 hne hid.symm

theorem c5_single_live_window_witness :
    AtMostOneLive (chatStep 1 2 "b" 3 (chatStep 1 2 "a" 0 initSys)) ∧
    LiveRegistered (chatStep 1 2 "b" 3 (chatStep 1 2 "a" 0 initSys)) :=
  c5_single_live_window _
    (Reachable.chat 1 2 "b" 3 (Reachable.chat 1 2 "a" 0 Reachable.init))

/-! ## The append contract (C6) -/

/-- When every incoming fragment is nonempty, every buffered text is
nonempty: the handler stores either the fragment itself or an aggregate
containing a newline. -/
theorem reachableNE_cacheNE (s : Sys) (h : ReachableNE s) : CacheNE s := by
  induction h with
  | init =>
    intro p hp
    simp [initSys, initCore] at hp
  | chat u cid text now hne hr ih =>
    intro p hp
    rcases mem_aset _ _ _ _ hp with h1 | h1
    · exact ih p h1
    · rcases h1 with rfl
      dsimp only
      split
      · exact append_newline_ne _ _
      · exact hne
  | fire oracle now hr ih =>
    intro p hp
    exact ih p ((fireDueGo_core_shape oracle now _ _).2.2.2.1 p hp)

/-- Claim C6: `append` (the aggregation step of the `chat` handler,
`bot.py` lines 260-274) always succeeds: when no entry exists for the user
it creates one whose buffer is the fragment; when an entry exists (its
buffer is nonempty in every reachable state, since `filters.TEXT` only
passes nonempty fragments) it appends the fragment after a single newline;
and the destination for the eventual dispatch is refreshed: the freshly
registered job carries the chat id supplied with this latest fragment. -/
theorem c6_append_contract (s : Sys) (h : ReachableNE s) (u cid : Nat)
    (f : String) (now : Nat) :
    (alookup s.core.cache u = none →
      alookup (chatStep u cid f now s).core.cache u = some f) ∧
    (∀ b, alookup s.core.cache u = some b →
      alookup (chatStep u cid f now s).core.cache u = some (b ++ "\n" ++ f)) ∧
    alookup (chatStep u cid f now s).core.user_jobs u = some s.core.nextId ∧
    (⟨s.core.nextId, u, cid, now + delay⟩ : Job) ∈ (chatStep u cid f now s).queue := by
  have hcc : (chatStep u cid f now s).core.cache =
      aset s.core.cache u
        (if (alookup s.core.cache u).getD "" ≠ ""
         then (alookup s.core.cache u).getD "" ++ "\n" ++ f else f) := rfl
  refine ⟨?_, ?_, ?_, ?_⟩
  · intro hn
    rw [hcc, hn]
    simp [alookup_aset_self]
  · intro b hb
    have hbne : b ≠ "" := reachableNE_cacheNE s h (u, b) (alookup_mem _ _ _ hb)
    rw [hcc, hb]
    simp [alookup_aset_self, hbne]
  · exact alookup_aset_self _ _ _
  · show _ ∈ s.queue ++ [(⟨s.core.nextId, u, cid, now + delay⟩ : Job)]
    exact List.mem_append_right _ (List.mem_singleton.mpr rfl)

theorem c6_append_contract_witness :
    alookup (chatStep 1 7 "b" 4
        (chatStep 1 2 "a" 0 initSys)).core.cache 1 = some ("a" ++ "\n" ++ "b") ∧
    alookup (chatStep 1 7 "b" 4
        (chatStep 1 2 "a" 0 initSys)).core.user_jobs 1 =
      some (chatStep 1 2 "a" 0 initSys).core.nextId ∧
    (⟨(chatStep 1 2 "a" 0 initSys).core.nextId, 1, 7, 4 + delay⟩ : Job) ∈
      (chatStep 1 7 "b" 4 (chatStep 1 2 "a" 0 initSys)).queue :=
  ⟨(c6_append_contract (chatStep 1 2 "a" 0 initSys)
      (ReachableNE.chat 1 2 "a" 0 (by decide) ReachableNE.init) 1 7 "b" 4).2.1
      "a" (by decide),
   (c6_append_contract (chatStep 1 2 "a" 0 initSys)
      (ReachableNE.chat 1 2 "a" 0 (by decide) ReachableNE.init) 1 7 "b" 4).2.2.1,
   (c6_append_contract (chatStep 1 2 "a" 0 initSys)
      (ReachableNE.chat 1 2 "a" 0 (by decide) ReachableNE.init) 1 7 "b" 4).2.2.2⟩

/-! ## Handler step order (C8) -/

/-- Claim C8, counterexample: with a prior job registered for the user, the
`chat` handler's first state-changing step is the cancellation of the prior
scheduled task (`bot.py` lines 256-258), and only then is the fragment
appended to the store (lines 260-274); the claimed order (append first, then
cancel) does not match the trace the handler performs. -/
theorem c8_order_counterexample :
    (chat 1 2 "b" 3 (chatStep 1 2 "a" 0 initSys)).2 =
      [ChatAction.cancelPrior, ChatAction.appendStore,
       ChatAction.scheduleJob, ChatAction.registerJob] ∧
    (chat 1 2 "b" 3 (chatStep 1 2 "a" 0 initSys)).2 ≠
      [ChatAction.appendStore, ChatAction.cancelPrior,
       ChatAction.scheduleJob, ChatAction.registerJob] := by
  constructor
  · decide
  · decide

/-- Claim C8 as amended: on each incoming fragment the handler first cancels
any prior scheduled task for the user, then appends the fragment to the
Aggregation Store under the user key, then schedules the new delayed task
and registers it (when no prior task exists, the cancellation step is
skipped). -/
theorem c8_handler_order (u cid : Nat) (text : String) (now : Nat) (s : Sys) :
    ((alookup s.core.user_jobs u).isSome →
      (chat u cid text now s).2 =
        [ChatAction.cancelPrior, ChatAction.appendStore,
         ChatAction.scheduleJob, ChatAction.registerJob]) ∧
    (alookup s.core.user_jobs u = none →
      (chat u cid text now s).2 =
        [ChatAction.appendStore, ChatAction.scheduleJob,
         ChatAction.registerJob]) := by
  constructor
  · intro h
    cases hj : alookup s.core.user_jobs u with
    | none => rw [hj] at h; simp at h
    | some jid => simp [chat, hj]
  · intro h
    simp [chat, h]

theorem c8_handler_order_witness :
    (chat 4 9 "hello" 11 initSys).2 =
      [ChatAction.appendStore, ChatAction.scheduleJob,
       ChatAction.registerJob] :=
  (c8_handler_order 4 9 "hello" 11 initSys).2 (by decide)

theorem c4_failure_containment_witness :
    process_text_input (fun _ _ => none) 1 "hi" = errorReply ∧
    (process_aggregated_text (fun _ _ => none) ⟨0, 1, 2, 5⟩
        ⟨[(1, "hi")], [(1, 0)], [], 1⟩).2 =
      [Event.completion 1 "hi", Event.sent 2 errorReply] ∧
    alookup (process_aggregated_text (fun _ _ => none) ⟨0, 1, 2, 5⟩
        ⟨[(1, "hi")], [(1, 0)], [], 1⟩).1.cache 1 = none ∧
    alookup (chatStep 1 3 "new" 20
        ⟨(process_aggregated_text (fun _ _ => none) ⟨0, 1, 2, 5⟩
            ⟨[(1, "hi")], [(1, 0)], [], 1⟩).1, []⟩).core.cache 1 = some "new" :=
  c4_failure_containment (fun _ _ => none) ⟨0, 1, 2, 5⟩
    ⟨[(1, "hi")], [(1, 0)], [], 1⟩ "hi" rfl (by decide) [] 3 "new" 20

end Bot
